import Mathlib

/-!
Shallow embedding of the BoardgameGeekMatch core (src/app.py): the
Normalizer (`normalize_and_tokenize`), the Title Matcher
(`token_based_match`), the Scorer (`compare_users`) and the Ranker
(`find_top_matches`), together with theorems settling the specification
claims.  Regex character classes of the source (`\w`, `\s`) and Python's
`str.lower` are modelled on ASCII, which covers the whole dataset domain;
Python dicts are modelled as insertion-ordered association lists and the
stable `list.sort(key=..., reverse=True)` as a stable descending insertion
sort.
-/

namespace BGG

/-- Model of `str.lower` on ASCII: table of uppercase/lowercase pairs. -/
def lowerPairs : List (Char × Char) :=
  [('A','a'), ('B','b'), ('C','c'), ('D','d'), ('E','e'), ('F','f'),
   ('G','g'), ('H','h'), ('I','i'), ('J','j'), ('K','k'), ('L','l'),
   ('M','m'), ('N','n'), ('O','o'), ('P','p'), ('Q','q'), ('R','r'),
   ('S','s'), ('T','t'), ('U','u'), ('V','v'), ('W','w'), ('X','x'),
   ('Y','y'), ('Z','z')]

/-- Lowercase one character (identity outside A–Z). -/
def lowerChar (c : Char) : Char :=
  match lowerPairs.find? (fun p => p.1 == c) with
  | some p => p.2
  | none => c

/-- Model of the regex class `\w` (word character) on ASCII. -/
def isWordChar (c : Char) : Bool :=
  c.isAlphanum || c == '_'

/-- Model of the regex class `\s` (whitespace) on ASCII. -/
def isSpaceChar (c : Char) : Bool :=
  c == ' ' || c == '\t' || c == '\n' || c == '\r' || c == '\x0b' || c == '\x0c'

/-- Step 1 of `normalize_and_tokenize`: `title.lower()`. -/
def lowerStr (s : List Char) : List Char :=
  s.map lowerChar

/-- Step 2: `re.sub(r"[^\w\s]", "", s)` keeps exactly the word characters
and whitespace. -/
def removePunct (s : List Char) : List Char :=
  s.filter (fun c => isWordChar c || isSpaceChar c)

/-- Accumulator-based splitter behind `str.split()`: splits on runs of
whitespace and drops empty pieces; `acc` holds the current word reversed. -/
def splitAux : List Char → List Char → List (List Char)
  | [], acc => if acc = [] then [] else [acc.reverse]
  | c :: cs, acc =>
    if isSpaceChar c then
      if acc = [] then splitAux cs [] else acc.reverse :: splitAux cs []
    else splitAux cs (c :: acc)

/-- Step 3: `s.split()`. -/
def splitWS (s : List Char) : List (List Char) :=
  splitAux s []

/-- The fixed stopword set of the source. -/
def STOPWORDS : List String := ["of", "the", "and"]

/-- The fixed numeral table of the source: digits "0".."20" and their
spelled-out forms, each mapped to the canonical spelled-out form. -/
def NUMBER_MAP : List (String × String) :=
  [("0", "zero"), ("zero", "zero"),
   ("1", "one"), ("one", "one"),
   ("2", "two"), ("two", "two"),
   ("3", "three"), ("three", "three"),
   ("4", "four"), ("four", "four"),
   ("5", "five"), ("five", "five"),
   ("6", "six"), ("six", "six"),
   ("7", "seven"), ("seven", "seven"),
   ("8", "eight"), ("eight", "eight"),
   ("9", "nine"), ("nine", "nine"),
   ("10", "ten"), ("ten", "ten"),
   ("11", "eleven"), ("eleven", "eleven"),
   ("12", "twelve"), ("twelve", "twelve"),
   ("13", "thirteen"), ("thirteen", "thirteen"),
   ("14", "fourteen"), ("fourteen", "fourteen"),
   ("15", "fifteen"), ("fifteen", "fifteen"),
   ("16", "sixteen"), ("sixteen", "sixteen"),
   ("17", "seventeen"), ("seventeen", "seventeen"),
   ("18", "eighteen"), ("eighteen", "eighteen"),
   ("19", "nineteen"), ("nineteen", "nineteen"),
   ("20", "twenty"), ("twenty", "twenty")]

/-- `NUMBER_MAP[t] if t in NUMBER_MAP else t`. -/
def canonNum (t : String) : String :=
  match NUMBER_MAP.lookup t with
  | some v => v
  | none => t

/-- The per-token loop of `normalize_and_tokenize`: skip stopwords, send
the rest through the numeral table, keep order. -/
def processTokens : List String → List String
  | [] => []
  | t :: ts =>
    if t ∈ STOPWORDS then processTokens ts
    else canonNum t :: processTokens ts

/-- `normalize_and_tokenize` of src/app.py: lowercase, strip punctuation,
split on whitespace, drop stopwords, canonicalize numerals. -/
def normalize_and_tokenize (title : String) : List String :=
  processTokens ((splitWS (removePunct (lowerStr title.data))).map String.mk)

/-- `token_based_match` of src/app.py: single-token exact match, else
bidirectional token-subset check. -/
def token_based_match (title_a title_b : String) : Bool :=
  let tokens_a := normalize_and_tokenize title_a
  let tokens_b := normalize_and_tokenize title_b
  if tokens_a.length = 1 ∧ tokens_b.length = 1 then
    tokens_a.headD "" == tokens_b.headD ""
  else
    tokens_a.all (fun t => tokens_b.elem t) || tokens_b.all (fun t => tokens_a.elem t)

/-! ### Scorer (`compare_users`) and Ranker (`find_top_matches`) -/

/-- The per-entry record `{"rank": rank, "weight": weight}` of the source. -/
structure Info where
  rank : Int
  weight : Int
deriving DecidableEq, Repr

/-- A Python dict keyed by raw label, modelled as an insertion-ordered
association list. -/
abbrev PrefDict := List (String × Info)

/-- The record appended to `overlap_details` for every matched pair. -/
structure OverlapRecord where
  game_user : String
  game_other : String
  your_rank : Int
  their_rank : Int
deriving DecidableEq, Repr

/-- `SYNERGY_BASE = 20`, fixed, no user input. -/
def SYNERGY_BASE : Int := 20

/-- Loop state of `compare_users`: the running score, the running
`overlap_count`, and `overlap_details` in append order. -/
structure CmpState where
  score : Int
  overlap_count : Nat
  overlaps : List OverlapRecord
deriving DecidableEq, Repr

/-- The OverlapRecord built for a matched pair. -/
def mkRecord (u o : String × Info) : OverlapRecord :=
  ⟨u.1, o.1, u.2.rank, o.2.rank⟩

/-- The body of the inner loop of `compare_users` for one matched pair:
add the weight dot-product, bump `overlap_count`, and add
`synergy * overlap_count` while the count is at most 10. -/
def stepMatched (u o : String × Info) (st : CmpState) : CmpState :=
  let score1 := st.score + u.2.weight * o.2.weight
  let synergy : Int := max 0 (SYNERGY_BASE - |u.2.rank - o.2.rank|)
  let cnt := st.overlap_count + 1
  let score2 := if cnt ≤ 10 then score1 + synergy * (cnt : Int) else score1
  ⟨score2, cnt, st.overlaps ++ [mkRecord u o]⟩

/-- The body of the inner loop of `compare_users` for an arbitrary pair:
act only when the Title Matcher reports a match. -/
def stepPair (u o : String × Info) (st : CmpState) : CmpState :=
  if token_based_match u.1 o.1 then stepMatched u o st else st

/-- `compare_users` of src/app.py: iterate the user's dict crossed with
the other person's dict and fold the matched pairs into the state. -/
def compare_users (user_dict other_dict : PrefDict) : Int × List OverlapRecord :=
  let st := user_dict.foldl
    (fun st u => other_dict.foldl (fun st o => stepPair u o st) st)
    ⟨0, 0, []⟩
  (st.score, st.overlaps)

/-- One result row `{"person": ..., "score": ..., "overlap": ...}`. -/
structure MatchResult where
  person : String
  score : Int
  overlap : List OverlapRecord
deriving DecidableEq, Repr

/-- Python dict assignment `d[k] = v`: update in place when the key is
present (keeping its insertion position), else append. -/
def dictInsert (k : String) (v : Info) (d : PrefDict) : PrefDict :=
  if d.any (fun p => p.1 == k) then
    d.map (fun p => if p.1 == k then (k, v) else p)
  else d ++ [(k, v)]

/-- The loop of `find_top_matches` that builds `new_user_dict` with
`weight = 11 - rank`. -/
def buildUserDict (new_user_list : List (String × Int)) : PrefDict :=
  new_user_list.foldl (fun d gr => dictInsert gr.1 ⟨gr.2, 11 - gr.2⟩ d) []

/-- The unsorted per-person result list, in the dataset's own iteration
order. -/
def resultsOf (user_dict : PrefDict) (transformed_data : List (String × PrefDict)) :
    List MatchResult :=
  transformed_data.map (fun p =>
    { person := p.1
      score := (compare_users user_dict p.2).1
      overlap := (compare_users user_dict p.2).2 })

/-- The order in which `results.sort(key=lambda x: x["score"], reverse=True)`
keeps its elements: higher score first. -/
def scoreGE (a b : MatchResult) : Prop := b.score ≤ a.score

instance : DecidableRel scoreGE := fun a b => Int.decLe b.score a.score

instance : IsTotal MatchResult scoreGE :=
  ⟨fun a b => (le_total b.score a.score).imp (fun h => h) (fun h => h)⟩

instance : IsTrans MatchResult scoreGE :=
  ⟨fun _ _ _ hab hbc => le_trans hbc hab⟩

/-- Python's stable `list.sort(..., reverse=True)`, modelled as a stable
insertion sort on the descending-score order. -/
def sortDesc (l : List MatchResult) : List MatchResult :=
  l.insertionSort scoreGE

/-- `find_top_matches` of src/app.py: build the user's dict, score every
person, sort by score descending (stable) and keep the first `top_n`. -/
def find_top_matches (new_user_list : List (String × Int))
    (transformed_data : List (String × PrefDict)) (top_n : Nat := 20) :
    List MatchResult :=
  (sortDesc (resultsOf (buildUserDict new_user_list) transformed_data)).take top_n

/-! ### Spec-side definitions for the Scorer formula -/

/-- All matched label pairs in traversal order: the user's dict in
insertion order and, for each user entry, the other dict in insertion
order. -/
def matchedPairs (user other : PrefDict) : List ((String × Info) × (String × Info)) :=
  match user with
  | [] => []
  | u :: us =>
    ((other.filter (fun o => token_based_match u.1 o.1)).map (fun o => (u, o)))
      ++ matchedPairs us other

/-- Weight dot-product of one matched pair. -/
def wprod (p : (String × Info) × (String × Info)) : Int :=
  p.1.2.weight * p.2.2.weight

/-- Synergy of one matched pair: `max(0, SYNERGY_BASE - |Δrank|)`. -/
def synergyOf (p : (String × Info) × (String × Info)) : Int :=
  max 0 (SYNERGY_BASE - |p.1.2.rank - p.2.2.rank|)

/-- Pair each list element with its position, counting from `n`. -/
def enumF (n : Nat) : List α → List (Nat × α)
  | [] => []
  | a :: as => (n, a) :: enumF (n + 1) as

/-- The specification's score formula: the sum of the weight products of
every matched pair, plus, for the k-th matched pair with k ≤ 10, the
synergy of that pair times k. -/
def specScore (ps : List ((String × Info) × (String × Info))) : Int :=
  (ps.map wprod).sum
    + ((enumF 1 (ps.take 10)).map (fun e => synergyOf e.2 * (e.1 : Int))).sum

/-- Score of the matched-pair list processed with a running count that
starts at `c`, mirroring the loop of `compare_users`. -/
def scoreAux : List ((String × Info) × (String × Info)) → Nat → Int
  | [], _ => 0
  | p :: ps, c =>
    wprod p + (if c + 1 ≤ 10 then synergyOf p * ((c + 1 : Nat) : Int) else 0)
      + scoreAux ps (c + 1)

/-! ### Scorer lemmas -/

lemma inner_fold_eq (u : String × Info) (other : PrefDict) (st : CmpState) :
    other.foldl (fun st o => stepPair u o st) st
      = (other.filter (fun o => token_based_match u.1 o.1)).foldl
          (fun st o => stepMatched u o st) st := by
  induction other generalizing st with
  | nil => rfl
  | cons o os ih =>
    by_cases h : token_based_match u.1 o.1
    · rw [List.foldl_cons, List.filter_cons_of_pos (by simpa using h), List.foldl_cons,
        show stepPair u o st = stepMatched u o st from by simp [stepPair, h]]
      exact ih _
    · rw [List.foldl_cons, List.filter_cons_of_neg (by simpa using h),
        show stepPair u o st = st from by simp [stepPair, h]]
      exact ih _

lemma outer_fold_eq (user other : PrefDict) (st : CmpState) :
    user.foldl (fun st u => other.foldl (fun st o => stepPair u o st) st) st
      = (matchedPairs user other).foldl (fun st p => stepMatched p.1 p.2 st) st := by
  induction user generalizing st with
  | nil => rfl
  | cons u us ih =>
    rw [List.foldl_cons, inner_fold_eq, matchedPairs, List.foldl_append, ih,
      List.foldl_map]

lemma foldl_stepMatched (ps : List ((String × Info) × (String × Info)))
    (st : CmpState) :
    (ps.foldl (fun st p => stepMatched p.1 p.2 st) st).score
        = st.score + scoreAux ps st.overlap_count
      ∧ (ps.foldl (fun st p => stepMatched p.1 p.2 st) st).overlaps
        = st.overlaps ++ ps.map (fun p => mkRecord p.1 p.2)
      ∧ (ps.foldl (fun st p => stepMatched p.1 p.2 st) st).overlap_count
        = st.overlap_count + ps.length := by
  induction ps generalizing st with
  | nil => simp [scoreAux]
  | cons p ps ih =>
    obtain ⟨ihs, iho, ihc⟩ := ih (stepMatched p.1 p.2 st)
    refine ⟨?_, ?_, ?_⟩
    · rw [List.foldl_cons, ihs, scoreAux]
      simp only [stepMatched, wprod, synergyOf]
      by_cases h : st.overlap_count + 1 ≤ 10 <;> simp [h] <;> ring
    · rw [List.foldl_cons, iho]
      simp [stepMatched, List.append_assoc]
    · rw [List.foldl_cons, ihc]
      simp [stepMatched]
      omega

/-- The score and overlap of `compare_users` in terms of the matched-pair
list. -/
lemma compare_users_eq (user other : PrefDict) :
    compare_users user other
      = (scoreAux (matchedPairs user other) 0,
         (matchedPairs user other).map (fun p => mkRecord p.1 p.2)) := by
  unfold compare_users
  rw [outer_fold_eq]
  obtain ⟨hs, ho, _⟩ :=
    foldl_stepMatched (matchedPairs user other) ⟨0, 0, []⟩
  simp only at hs ho
  rw [Prod.mk.injEq]
  exact ⟨by rw [hs]; simp, by rw [ho]; simp⟩

lemma scoreAux_eq_spec (ps : List ((String × Info) × (String × Info))) :
    ∀ c : Nat,
      scoreAux ps c = (ps.map wprod).sum
        + ((enumF (c + 1) (ps.take (10 - c))).map
            (fun e => synergyOf e.2 * (e.1 : Int))).sum := by
  induction ps with
  | nil => intro c; simp [scoreAux, enumF]
  | cons p ps ih =>
    intro c
    rw [scoreAux, ih (c + 1)]
    by_cases h : c + 1 ≤ 10
    · have h10 : 10 - c = (10 - (c + 1)) + 1 := by omega
      rw [h10, List.take_succ_cons, enumF]
      simp only [List.map_cons, List.map, List.sum_cons, h, if_true]
      push_cast
      ring
    · have h10 : 10 - c = 0 := by omega
      have h10' : 10 - (c + 1) = 0 := by omega
      rw [h10, h10', List.take_zero, List.take_zero]
      simp only [enumF, List.map_nil, List.sum_nil, h, if_false]
      simp [List.map_cons, List.sum_cons]

lemma mem_matchedPairs {p : (String × Info) × (String × Info)}
    {user other : PrefDict} (h : p ∈ matchedPairs user other) :
    p.1 ∈ user ∧ p.2 ∈ other := by
  induction user with
  | nil => simp [matchedPairs] at h
  | cons u us ih =>
    rw [matchedPairs, List.mem_append] at h
    rcases h with h | h
    · obtain ⟨o, ho, rfl⟩ := List.mem_map.mp h
      exact ⟨List.mem_cons_self u us, (List.mem_filter.mp ho).1⟩
    · exact ⟨List.mem_cons_of_mem u (ih h).1, (ih h).2⟩

lemma scoreAux_ge_length (ps : List ((String × Info) × (String × Info)))
    (hps : ∀ p ∈ ps, 1 ≤ wprod p) :
    ∀ c : Nat, (ps.length : Int) ≤ scoreAux ps c := by
  induction ps with
  | nil => intro c; simp [scoreAux]
  | cons p ps ih =>
    intro c
    have h1 : 1 ≤ wprod p := hps p (List.mem_cons_self p ps)
    have h2 : (ps.length : Int) ≤ scoreAux ps (c + 1) :=
      ih (fun q hq => hps q (List.mem_cons_of_mem p hq)) (c + 1)
    have h3 : (0 : Int) ≤ if c + 1 ≤ 10 then synergyOf p * ((c : Int) + 1) else 0 := by
      split
      · exact mul_nonneg (le_max_left 0 _) (by positivity)
      · exact le_refl 0
    rw [scoreAux]
    simp only [List.length_cons, Nat.cast_succ]
    linarith

/-! ### Sorting lemmas for the Ranker -/

lemma filter_orderedInsert (s : Int) (a : MatchResult) (l : List MatchResult) :
    (l.orderedInsert scoreGE a).filter (fun r => r.score == s)
      = if a.score = s
        then a :: l.filter (fun r => r.score == s)
        else l.filter (fun r => r.score == s) := by
  induction l with
  | nil =>
    by_cases h : a.score = s <;> simp [List.orderedInsert, List.filter_cons, h]
  | cons b l ih =>
    rw [List.orderedInsert]
    by_cases hr : scoreGE a b
    · rw [if_pos hr]
      by_cases h : a.score = s <;> simp [List.filter_cons, h]
    · rw [if_neg hr, List.filter_cons, List.filter_cons]
      by_cases h : a.score = s
      · have hb : ¬ b.score = s := by
          intro hbs
          exact hr (by simp [scoreGE, hbs, h])
        simp [ih, h, hb]
      · by_cases hb : b.score = s <;> simp [ih, h, hb]

lemma filter_sortDesc (s : Int) (l : List MatchResult) :
    (sortDesc l).filter (fun r => r.score == s) = l.filter (fun r => r.score == s) := by
  induction l with
  | nil => rfl
  | cons a l ih =>
    rw [sortDesc, List.insertionSort]
    rw [show List.insertionSort scoreGE l = sortDesc l from rfl]
    rw [filter_orderedInsert, List.filter_cons]
    by_cases h : a.score = s <;> simp [h, ih]

lemma sorted_of_all_zero (l : List MatchResult) (h : ∀ r ∈ l, r.score = 0) :
    l.Sorted scoreGE := by
  induction l with
  | nil => exact List.sorted_nil
  | cons a l ih =>
    rw [List.sorted_cons]
    refine ⟨fun b hb => ?_, ih (fun r hr => h r (List.mem_cons_of_mem a hr))⟩
    show b.score ≤ a.score
    rw [h a (List.mem_cons_self a l), h b (List.mem_cons_of_mem a hb)]

/-! ### Claim theorems: Scorer -/

/-- Claim C1: for every pair of preference sets, `compare_users` returns a
score equal to the sum over the matched pairs (taken in traversal order:
user entries in insertion order and, per user entry, the other entries in
insertion order) of `user_weight * other_weight`, plus, for the k-th
matched pair with k ≤ 10, `max(0, 20 − |user_rank − other_rank|) * k`;
matched pairs beyond the tenth contribute their weight product but no
synergy term. -/
theorem C1_compare_users_score (user other : PrefDict) :
    (compare_users user other).1 = specScore (matchedPairs user other) := by
  rw [compare_users_eq]
  exact scoreAux_eq_spec (matchedPairs user other) 0

/-- Claim C10: when every entry of both preference sets has rank in 1..10
and weight = 11 − rank, the score of `compare_users` is non-negative and
is 0 exactly when the returned overlap list is empty. -/
theorem C10_score_nonneg (user other : PrefDict)
    (hu : ∀ e ∈ user, 1 ≤ e.2.rank ∧ e.2.rank ≤ 10 ∧ e.2.weight = 11 - e.2.rank)
    (ho : ∀ e ∈ other, 1 ≤ e.2.rank ∧ e.2.rank ≤ 10 ∧ e.2.weight = 11 - e.2.rank) :
    0 ≤ (compare_users user other).1
      ∧ ((compare_users user other).1 = 0 ↔ (compare_users user other).2 = []) := by
  have hw : ∀ p ∈ matchedPairs user other, 1 ≤ wprod p := by
    intro p hp
    obtain ⟨h1, h2⟩ := mem_matchedPairs hp
    obtain ⟨hu1, hu2, hu3⟩ := hu p.1 h1
    obtain ⟨ho1, ho2, ho3⟩ := ho p.2 h2
    have : 1 ≤ p.1.2.weight := by omega
    have : 1 ≤ p.2.2.weight := by omega
    unfold wprod
    nlinarith
  have hlen := scoreAux_ge_length (matchedPairs user other) hw 0
  simp only [compare_users_eq, List.map_eq_nil_iff]
  have h0 : (0 : Int) ≤ ((matchedPairs user other).length : Int) := by positivity
  refine ⟨le_trans h0 hlen, ?_, ?_⟩
  · intro hz
    by_contra hne
    have h1 : 1 ≤ (matchedPairs user other).length := by
      cases hq : matchedPairs user other with
      | nil => exact absurd hq hne
      | cons q qs => simp
    have h1' : (1 : Int) ≤ ((matchedPairs user other).length : Int) := by exact_mod_cast h1
    linarith
  · intro hz
    rw [hz]
    rfl

/-! ### Claim theorems: Title Matcher and Normalizer -/

/-- The matcher policy in the specification's words: single-token labels
must have equal tokens; otherwise a bidirectional token-subset test with
token presence read as set membership. -/
def matchesSpec (a b : String) : Prop :=
  let ta := normalize_and_tokenize a
  let tb := normalize_and_tokenize b
  if ta.length = 1 ∧ tb.length = 1 then ta.headD "" = tb.headD ""
  else (∀ t ∈ ta, t ∈ tb) ∨ (∀ t ∈ tb, t ∈ ta)

/-- Claim C2: `token_based_match` decides exactly the specification's
policy (single-token exactness, otherwise a bidirectional order-free
subset test); in particular "Arks" does not match "Parks", "ARKS" matches
"arks", and "SETI" matches "SETI Search for Extraterrestrial
Intelligence". -/
theorem C2_matcher_policy :
    (∀ a b : String, token_based_match a b = true ↔ matchesSpec a b)
      ∧ token_based_match "Arks" "Parks" = false
      ∧ token_based_match "ARKS" "arks" = true
      ∧ token_based_match "SETI" "SETI Search for Extraterrestrial Intelligence" = true := by
  refine ⟨fun a b => ?_, by decide, by decide, by decide⟩
  simp only [token_based_match, matchesSpec]
  by_cases h : (normalize_and_tokenize a).length = 1 ∧ (normalize_and_tokenize b).length = 1
  · rw [if_pos h, if_pos h]
    exact beq_iff_eq
  · rw [if_neg h, if_neg h]
    simp [List.all_eq_true, List.elem_iff]

/-- Claim C3 counterexample: the empty label normalizes to no tokens and
"wingspan" to one token, yet the matcher reports a match, because the
empty token list passes the subset test against anything. -/
theorem C3_counterexample :
    normalize_and_tokenize "" = []
      ∧ normalize_and_tokenize "wingspan" ≠ []
      ∧ token_based_match "" "wingspan" = true := by
  decide

/-- Claim C3 (amended): a label that normalizes to an empty token
sequence matches every label, not only empty-token ones: the empty token
sequence is a subset of every token set. -/
theorem C3_amended_empty_matches_all (a b : String)
    (h : normalize_and_tokenize a = []) :
    token_based_match a b = true := by
  simp only [token_based_match, h]
  simp

/-- Witness for the amended claim C3 at the empty label against
"wingspan". -/
theorem C3_amended_witness : token_based_match "" "wingspan" = true :=
  C3_amended_empty_matches_all "" "wingspan" (by decide)

/-- Claim C4 counterexample: "SETI" has one token, the long title has
more than one, and the matcher reports a match rather than the claimed
failure. -/
theorem C4_counterexample :
    (normalize_and_tokenize "SETI").length = 1
      ∧ 2 ≤ (normalize_and_tokenize "SETI Search for Extraterrestrial Intelligence").length
      ∧ token_based_match "SETI" "SETI Search for Extraterrestrial Intelligence" = true := by
  decide

lemma elem_or_all_singleton (tb : List String) (t : String) (h : 2 ≤ tb.length) :
    (tb.elem t || tb.all (fun x => [t].elem x)) = tb.elem t := by
  cases hel : tb.elem t with
  | true => simp
  | false =>
    simp only [Bool.false_or]
    cases hall : tb.all (fun x => [t].elem x) with
    | false => rfl
    | true =>
      exfalso
      obtain ⟨x, hx⟩ : ∃ x, x ∈ tb := by
        cases tb with
        | nil => simp at h
        | cons y ys => exact ⟨y, List.mem_cons_self y ys⟩
      have hxt : x = t := by
        have := List.all_eq_true.mp hall x hx
        simpa [List.elem_iff] using this
      rw [hxt] at hx
      rw [List.elem_iff.mpr hx] at hel
      exact Bool.true_eq_false.mp hel

/-- Claim C4 (amended): when label A normalizes to exactly one token and
label B to two or more, the matcher reports a match exactly when A's
token appears among B's tokens — a one-token alias does match a longer
multi-token title whenever the title contains that token. -/
theorem C4_amended_single_vs_multi (a b : String)
    (h1 : (normalize_and_tokenize a).length = 1)
    (h2 : 2 ≤ (normalize_and_tokenize b).length) :
    token_based_match a b
      = (normalize_and_tokenize b).elem ((normalize_and_tokenize a).headD "") := by
  obtain ⟨t, hta⟩ := List.length_eq_one.mp h1
  simp only [token_based_match, hta]
  rw [if_neg (by rintro ⟨-, hlen⟩; omega)]
  simp only [List.all_cons, List.all_nil, Bool.and_true, List.headD_cons]
  exact elem_or_all_singleton (normalize_and_tokenize b) t h2

/-- Witness for the amended claim C4 at the SETI pair. -/
theorem C4_amended_witness :
    token_based_match "SETI" "SETI Search for Extraterrestrial Intelligence"
      = (normalize_and_tokenize "SETI Search for Extraterrestrial Intelligence").elem
          ((normalize_and_tokenize "SETI").headD "") :=
  C4_amended_single_vs_multi "SETI" "SETI Search for Extraterrestrial Intelligence"
    (by decide) (by decide)

lemma processTokens_eq_filter_map (ts : List String) :
    processTokens ts = (ts.filter (fun t => t ∉ STOPWORDS)).map canonNum := by
  induction ts with
  | nil => rfl
  | cons t ts ih =>
    by_cases h : t ∈ STOPWORDS
    · simp [processTokens, h, ih, List.filter_cons]
    · simp [processTokens, h, ih, List.filter_cons]

/-- Claim C5: `normalize_and_tokenize` lowercases, strips every character
that is neither a word character nor whitespace, splits on whitespace,
drops the stopwords and canonicalizes numeral tokens through
`NUMBER_MAP`; in particular "War of the Ring" yields ["war", "ring"] and
"7 Wonders" normalizes the same as "Seven Wonders". -/
theorem C5_normalizer :
    (∀ s : String, normalize_and_tokenize s
        = (((splitWS (removePunct (lowerStr s.data))).map String.mk).filter
            (fun t => t ∉ STOPWORDS)).map canonNum)
      ∧ normalize_and_tokenize "War of the Ring" = ["war", "ring"]
      ∧ normalize_and_tokenize "7 Wonders" = normalize_and_tokenize "Seven Wonders" := by
  refine ⟨fun s => ?_, by decide, by decide⟩
  rw [normalize_and_tokenize, processTokens_eq_filter_map]

/-- Claim C8: the matcher is symmetric. -/
theorem C8_matcher_symmetric (a b : String) :
    token_based_match a b = token_based_match b a := by
  simp only [token_based_match]
  by_cases h : (normalize_and_tokenize a).length = 1 ∧ (normalize_and_tokenize b).length = 1
  · rw [if_pos h, if_pos ⟨h.2, h.1⟩, Bool.eq_iff_iff]
    simp only [beq_iff_eq]
    exact eq_comm
  · rw [if_neg h, if_neg (fun h2 => h ⟨h2.2, h2.1⟩), Bool.or_comm]

/-- Witness for claim C10 at a pair of one-entry preference sets. -/
theorem C10_witness :
    0 ≤ (compare_users [("Wingspan", ⟨1, 10⟩)] [("wingspan", ⟨2, 9⟩)]).1
      ∧ ((compare_users [("Wingspan", ⟨1, 10⟩)] [("wingspan", ⟨2, 9⟩)]).1 = 0
          ↔ (compare_users [("Wingspan", ⟨1, 10⟩)] [("wingspan", ⟨2, 9⟩)]).2 = []) :=
  C10_score_nonneg [("Wingspan", ⟨1, 10⟩)] [("wingspan", ⟨2, 9⟩)]
    (by decide) (by decide)

/-! ### Claim theorems: Ranker -/

/-- Claim C7: on an empty user entry list `find_top_matches` returns
normally: one result per dataset person (up to `top_n`) in the dataset's
own order, each with score 0 and an empty overlap list. -/
theorem C7_empty_query (data : List (String × PrefDict)) (n : Nat) :
    find_top_matches [] data n
        = (data.map (fun p => ⟨p.1, 0, []⟩ : String × PrefDict → MatchResult)).take n
      ∧ ∀ r ∈ find_top_matches [] data n, r.score = 0 ∧ r.overlap = [] := by
  have hres : resultsOf (buildUserDict []) data
      = data.map (fun p => (⟨p.1, 0, []⟩ : MatchResult)) := rfl
  have hall : ∀ r ∈ data.map (fun p => (⟨p.1, 0, []⟩ : MatchResult)), r.score = 0 := by
    intro r hr
    obtain ⟨p, -, rfl⟩ := List.mem_map.mp hr
    rfl
  have hsort : sortDesc (resultsOf (buildUserDict []) data)
      = data.map (fun p => (⟨p.1, 0, []⟩ : MatchResult)) := by
    rw [hres]
    exact (sorted_of_all_zero _ hall).insertionSort_eq
  have hmain : find_top_matches [] data n
      = (data.map (fun p => (⟨p.1, 0, []⟩ : MatchResult))).take n := by
    rw [find_top_matches, hsort]
  refine ⟨hmain, fun r hr => ?_⟩
  rw [hmain] at hr
  obtain ⟨p, -, rfl⟩ := List.mem_map.mp (List.take_subset n _ hr)
  exact ⟨rfl, rfl⟩

/-- Claim C6: `find_top_matches` is the first `top_n` entries of a stable
descending sort of the per-person results: the output is the truncation
of the sorted list, it is sorted by score descending, the sorted list is
a permutation of the per-person results, and elements of equal score keep
the dataset's original relative order; being a pure function, repeated
calls agree. -/
theorem C6_ranker (q : List (String × Int)) (data : List (String × PrefDict)) (n : Nat) :
    find_top_matches q data n
        = (sortDesc (resultsOf (buildUserDict q) data)).take n
      ∧ (find_top_matches q data n).Sorted scoreGE
      ∧ List.Perm (sortDesc (resultsOf (buildUserDict q) data))
          (resultsOf (buildUserDict q) data)
      ∧ (∀ s : Int,
          (sortDesc (resultsOf (buildUserDict q) data)).filter (fun r => r.score == s)
            = (resultsOf (buildUserDict q) data).filter (fun r => r.score == s))
      ∧ find_top_matches q data n = find_top_matches q data n := by
  refine ⟨rfl, ?_, List.perm_insertionSort scoreGE _,
    fun s => filter_sortDesc s (resultsOf (buildUserDict q) data), rfl⟩
  exact List.Pairwise.sublist (List.take_sublist n _)
    (List.sorted_insertionSort scoreGE (resultsOf (buildUserDict q) data))

/-! ### Idempotence of the Normalizer -/

lemma lowerChar_lowerChar (c : Char) : lowerChar (lowerChar c) = lowerChar c := by
  have hfix : ∀ p ∈ lowerPairs, lowerChar p.2 = p.2 := by decide
  cases h : lowerPairs.find? (fun p => p.1 == c) with
  | none =>
    have hc : lowerChar c = c := by rw [lowerChar, h]
    rw [hc, hc]
  | some pr =>
    have hc : lowerChar c = pr.2 := by rw [lowerChar, h]
    rw [hc]
    exact hfix pr (List.mem_of_find?_eq_some h)

lemma mem_splitAux (Q : Char → Prop) :
    ∀ (s acc : List Char),
      (∀ c ∈ s, isSpaceChar c = false → Q c) →
      (∀ c ∈ acc, Q c ∧ isSpaceChar c = false) →
      ∀ w ∈ splitAux s acc, w ≠ [] ∧ ∀ c ∈ w, Q c ∧ isSpaceChar c = false := by
  intro s
  induction s with
  | nil =>
    intro acc _ hacc w hw
    rw [splitAux] at hw
    by_cases ha : acc = []
    · rw [if_pos ha] at hw
      simp at hw
    · rw [if_neg ha] at hw
      rw [List.mem_singleton] at hw
      subst hw
      refine ⟨by simpa using ha, fun c hc => hacc c (List.mem_reverse.mp hc)⟩
  | cons c cs ih =>
    intro acc hs hacc w hw
    rw [splitAux] at hw
    have hs' : ∀ d ∈ cs, isSpaceChar d = false → Q d :=
      fun d hd => hs d (List.mem_cons_of_mem c hd)
    by_cases hsp : isSpaceChar c
    · rw [if_pos hsp] at hw
      by_cases ha : acc = []
      · rw [if_pos ha] at hw
        exact ih [] hs' (by simp) w hw
      · rw [if_neg ha] at hw
        rcases List.mem_cons.mp hw with hw | hw
        · subst hw
          refine ⟨by simpa using ha, fun d hd => hacc d (List.mem_reverse.mp hd)⟩
        · exact ih [] hs' (by simp) w hw
    · rw [if_neg hsp] at hw
      refine ih (c :: acc) hs' ?_ w hw
      intro d hd
      rcases List.mem_cons.mp hd with rfl | hd
      · exact ⟨hs d (List.mem_cons_self d cs) (by simpa using hsp), by simpa using hsp⟩
      · exact hacc d hd

lemma splitAux_word (t : List Char) :
    ∀ (rest acc : List Char), (∀ c ∈ t, isSpaceChar c = false) →
      splitAux (t ++ rest) acc = splitAux rest (t.reverse ++ acc) := by
  induction t with
  | nil => intro rest acc _; simp
  | cons c t ih =>
    intro rest acc h
    have hc : isSpaceChar c = false := h c (List.mem_cons_self c t)
    rw [List.cons_append, splitAux, if_neg (by simp [hc]),
      ih rest (c :: acc) (fun d hd => h d (List.mem_cons_of_mem c hd))]
    simp

/-- Join a list of character lists with single spaces. -/
def joinChars : List (List Char) → List Char
  | [] => []
  | [t] => t
  | t :: ts => t ++ ' ' :: joinChars ts

lemma joinChars_singleton (t : List Char) : joinChars [t] = t := rfl

lemma joinChars_cons₂ (t t' : List Char) (ts : List (List Char)) :
    joinChars (t :: t' :: ts) = t ++ ' ' :: joinChars (t' :: ts) := rfl

lemma splitWS_joinChars :
    ∀ ts : List (List Char),
      (∀ t ∈ ts, t ≠ [] ∧ ∀ c ∈ t, isSpaceChar c = false) →
      splitWS (joinChars ts) = ts := by
  intro ts
  induction ts with
  | nil => intro _; rfl
  | cons t ts ih =>
    intro h
    obtain ⟨ht, htc⟩ := h t (List.mem_cons_self t ts)
    cases ts with
    | nil =>
      show splitAux (joinChars [t]) [] = [t]
      have hjt : joinChars [t] = t ++ [] := by
        rw [joinChars_singleton, List.append_nil]
      rw [hjt, splitAux_word t [] [] htc, splitAux, if_neg (by simpa using ht)]
      simp
    | cons t' ts' =>
      show splitAux (joinChars (t :: t' :: ts')) [] = t :: t' :: ts'
      rw [joinChars_cons₂, splitAux_word t (' ' :: joinChars (t' :: ts')) [] htc, splitAux,
        if_pos (by decide), if_neg (by simpa using ht)]
      rw [List.append_nil, List.reverse_reverse]
      have := ih (fun u hu => h u (List.mem_cons_of_mem t hu))
      rw [splitWS] at this
      rw [this]

lemma mem_joinChars {c : Char} :
    ∀ {ts : List (List Char)}, c ∈ joinChars ts → (∃ t ∈ ts, c ∈ t) ∨ c = ' ' := by
  intro ts
  induction ts with
  | nil => intro h; simp [joinChars] at h
  | cons t ts ih =>
    intro h
    cases ts with
    | nil =>
      rw [joinChars_singleton] at h
      exact Or.inl ⟨t, List.mem_singleton_self t, h⟩
    | cons t' ts' =>
      rw [joinChars_cons₂, List.mem_append] at h
      rcases h with h | h
      · exact Or.inl ⟨t, List.mem_cons_self t _, h⟩
      · rcases List.mem_cons.mp h with rfl | h
        · exact Or.inr rfl
        · rcases ih h with ⟨u, hu, hcu⟩ | hsp
          · exact Or.inl ⟨u, List.mem_cons_of_mem t hu, hcu⟩
          · exact Or.inr hsp

lemma map_fix {α : Type} (f : α → α) :
    ∀ l : List α, (∀ a ∈ l, f a = a) → l.map f = l := by
  intro l
  induction l with
  | nil => intro _; rfl
  | cons a l ih =>
    intro h
    rw [List.map_cons, h a (List.mem_cons_self a l),
      ih (fun b hb => h b (List.mem_cons_of_mem a hb))]

/-- A character as it occurs inside a normalized token: a word character,
fixed by lowercasing, and not whitespace. -/
def GoodChar (c : Char) : Prop :=
  isWordChar c = true ∧ lowerChar c = c ∧ isSpaceChar c = false

instance : DecidablePred GoodChar := fun c => by unfold GoodChar; infer_instance

/-- A normalized token: non-empty, made of good characters, not a
stopword, and a fixed point of the numeral table. -/
def GoodTok (u : String) : Prop :=
  u.data ≠ [] ∧ (∀ c ∈ u.data, GoodChar c) ∧ u ∉ STOPWORDS ∧ canonNum u = u

instance : DecidablePred GoodTok := fun u => by unfold GoodTok; infer_instance

lemma number_map_values_good : ∀ p ∈ NUMBER_MAP, GoodTok p.2 := by decide

lemma mem_processTokens {u : String} :
    ∀ {ts : List String}, u ∈ processTokens ts →
      ∃ t, t ∈ ts ∧ t ∉ STOPWORDS ∧ u = canonNum t := by
  intro ts
  induction ts with
  | nil => intro h; simp [processTokens] at h
  | cons t ts ih =>
    intro h
    rw [processTokens] at h
    by_cases hs : t ∈ STOPWORDS
    · rw [if_pos hs] at h
      obtain ⟨t', h1, h2, h3⟩ := ih h
      exact ⟨t', List.mem_cons_of_mem t h1, h2, h3⟩
    · rw [if_neg hs] at h
      rcases List.mem_cons.mp h with heq | h
      · exact ⟨t, List.mem_cons_self t ts, hs, heq⟩
      · obtain ⟨t', h1, h2, h3⟩ := ih h
        exact ⟨t', List.mem_cons_of_mem t h1, h2, h3⟩

lemma processTokens_fix :
    ∀ ts : List String, (∀ u ∈ ts, u ∉ STOPWORDS ∧ canonNum u = u) →
      processTokens ts = ts := by
  intro ts
  induction ts with
  | nil => intro _; rfl
  | cons t ts ih =>
    intro h
    obtain ⟨h1, h2⟩ := h t (List.mem_cons_self t ts)
    rw [processTokens, if_neg h1, h2, ih (fun u hu => h u (List.mem_cons_of_mem t hu))]

/-- Every token produced by the Normalizer is a normalized token. -/
lemma norm_good (s : String) : ∀ u ∈ normalize_and_tokenize s, GoodTok u := by
  intro u hu
  rw [normalize_and_tokenize] at hu
  obtain ⟨t, ht_mem, ht_stop, rfl⟩ := mem_processTokens hu
  obtain ⟨w, hw_mem, rfl⟩ := List.mem_map.mp ht_mem
  have hchars : ∀ c ∈ removePunct (lowerStr s.data),
      isSpaceChar c = false → isWordChar c = true ∧ lowerChar c = c := by
    intro c hc hns
    rw [removePunct, List.mem_filter] at hc
    obtain ⟨hcl, hkeep⟩ := hc
    refine ⟨?_, ?_⟩
    · have hkeep' : isWordChar c = true ∨ isSpaceChar c = true := by
        simpa using hkeep
      rcases hkeep' with hw | hsp
      · exact hw
      · rw [hsp] at hns; exact absurd hns (by simp)
    · rw [lowerStr] at hcl
      obtain ⟨c0, -, rfl⟩ := List.mem_map.mp hcl
      exact lowerChar_lowerChar c0
  have hsplit := mem_splitAux (fun c => isWordChar c = true ∧ lowerChar c = c)
    (removePunct (lowerStr s.data)) [] hchars (by simp) w hw_mem
  have hwchars : ∀ c ∈ (String.mk w).data, GoodChar c := by
    intro c hc
    obtain ⟨⟨h1, h2⟩, h3⟩ := hsplit.2 c hc
    exact ⟨h1, h2, h3⟩
  cases hlk : NUMBER_MAP.lookup (String.mk w) with
  | some v =>
    have hmem : (String.mk w, v) ∈ NUMBER_MAP := by
      obtain ⟨l₁, l₂, hdec, -⟩ := List.lookup_eq_some_iff.mp hlk
      rw [hdec]
      exact List.mem_append.mpr (Or.inr (List.mem_cons_self _ _))
    have hcv : canonNum (String.mk w) = v := by rw [canonNum, hlk]
    rw [hcv]
    exact number_map_values_good (String.mk w, v) hmem
  | none =>
    have hcv : canonNum (String.mk w) = String.mk w := by rw [canonNum, hlk]
    rw [hcv]
    exact ⟨hsplit.1, hwchars, ht_stop, hcv⟩

/-- Join a token sequence with single spaces, as a string. -/
def joinSpace (ts : List String) : String :=
  String.mk (joinChars (ts.map String.data))

/-- Claim C9: `normalize_and_tokenize` is idempotent: joining the token
sequence of any label with single spaces and normalizing again yields the
same token sequence. -/
theorem C9_normalizer_idempotent (s : String) :
    normalize_and_tokenize (joinSpace (normalize_and_tokenize s))
      = normalize_and_tokenize s := by
  have hgood := norm_good s
  set ts := normalize_and_tokenize s with hts
  have hlower : lowerStr (joinSpace ts).data = joinChars (ts.map String.data) := by
    show lowerStr (joinChars (ts.map String.data)) = joinChars (ts.map String.data)
    rw [lowerStr]
    apply map_fix
    intro c hc
    rcases mem_joinChars hc with ⟨w, hw, hcw⟩ | rfl
    · obtain ⟨u, hu, rfl⟩ := List.mem_map.mp hw
      exact ((hgood u hu).2.1 c hcw).2.1
    · decide
  have hpunct : removePunct (joinChars (ts.map String.data))
      = joinChars (ts.map String.data) := by
    rw [removePunct, List.filter_eq_self]
    intro c hc
    rcases mem_joinChars hc with ⟨w, hw, hcw⟩ | rfl
    · obtain ⟨u, hu, rfl⟩ := List.mem_map.mp hw
      have hg := (hgood u hu).2.1 c hcw
      simp [hg.1]
    · decide
  have hsplit : splitWS (joinChars (ts.map String.data)) = ts.map String.data := by
    apply splitWS_joinChars
    intro w hw
    obtain ⟨u, hu, rfl⟩ := List.mem_map.mp hw
    have hg := hgood u hu
    exact ⟨hg.1, fun c hc => (hg.2.1 c hc).2.2⟩
  have hmk : (ts.map String.data).map String.mk = ts := by
    rw [List.map_map]
    exact map_fix _ ts (fun u _ => rfl)
  have hproc : processTokens ts = ts :=
    processTokens_fix ts (fun u hu => ⟨(hgood u hu).2.2.1, (hgood u hu).2.2.2⟩)
  rw [normalize_and_tokenize, hlower, hpunct, hsplit, hmk, hproc]

end BGG
